import Mathlib

/-!
Shallow embedding of `gsout.py` (henryleberre/gsout): a scrape-and-download
pipeline. Pure string manipulation is embedded directly over `List Char`;
network effects (`requests.Session.get`) and the external JSON parser
(`json.loads` followed by the `["pdf_attachment"]["url"]` lookup) are
modelled as oracle functions supplied in an environment record. A raised
exception from a GET is modelled by `HttpResult.raise`; disk writes are
modelled as infallible, so download failures arise from the GET outcome.
-/

namespace Gsout

/-! ### String machinery mirroring the Python primitives used by gsout -/

/-- Whitespace characters recognised by Python `str.split()` (no separator). -/
def isPySpace (c : Char) : Bool :=
  c == ' ' || c == '\t' || c == '\n' || c == '\r' || c == '\x0b' || c == '\x0c'

/-- Accumulator-based worker for `str.split()` with no separator:
runs of non-whitespace become tokens, whitespace is discarded. -/
def wsSplitAux : List Char → List Char → List (List Char)
  | acc, [] => if acc.isEmpty then [] else [acc.reverse]
  | acc, c :: rest =>
    if isPySpace c then
      if acc.isEmpty then wsSplitAux [] rest
      else acc.reverse :: wsSplitAux [] rest
    else wsSplitAux (c :: acc) rest

/-- Python `s.split()` (no argument): split on runs of whitespace,
dropping empty tokens. -/
def wsSplit (s : List Char) : List (List Char) :=
  wsSplitAux [] s

/-- Python `int(s)` restricted to an optional sign followed by ASCII
decimal digits (the shapes that occur in term strings); `none` models the
`ValueError` path. -/
def parseNatAux : List Char → Nat → Option Nat
  | [], acc => some acc
  | c :: rest, acc =>
    if c.isDigit then parseNatAux rest (acc * 10 + (c.toNat - '0'.toNat))
    else none

/-- Digits-only natural parse; empty input fails. -/
def parseNat? : List Char → Option Nat
  | [] => none
  | c :: rest => parseNatAux (c :: rest) 0

/-- Signed integer parse modelling Python `int(...)` on `split()` tokens. -/
def parseInt? : List Char → Option Int
  | '-' :: rest => (parseNat? rest).map (fun n => -(n : Int))
  | '+' :: rest => (parseNat? rest).map (fun n => (n : Int))
  | s => (parseNat? s).map (fun n => (n : Int))

/-- `SEASON_ORDER = {'Spring': 0, 'Summer': 1, 'Fall': 2}`; `none` models
the `KeyError` path. -/
def seasonOrder? (tok : List Char) : Option Int :=
  if tok = "Spring".data then some 0
  else if tok = "Summer".data then some 1
  else if tok = "Fall".data then some 2
  else none

/-! ### Term sort key (`term_chrono_index` inside `sort_courses`) -/

/-- `term_chrono_index`: parse the term as `"Season Year"` and return
`(int(year), SEASON_ORDER[season])`; any failure (wrong token count,
unparsable year, unknown season) yields `(0, 0)`. -/
def term_chrono_index (term : String) : Int × Int :=
  match wsSplit term.data with
  | [season, year] =>
    match parseInt? year, seasonOrder? season with
    | some y, some r => (y, r)
    | _, _ => (0, 0)
  | _ => (0, 0)

/-- Whether the term string parses as `"Season Year"` (exactly two
whitespace-separated tokens, integer year, known season). -/
def termParses (term : String) : Bool :=
  match wsSplit term.data with
  | [season, year] => (parseInt? year).isSome && (seasonOrder? season).isSome
  | _ => false

/-! ### Data model (the dataclasses of gsout.py) -/

/-- Dataclass `InspectedAssignmentFromCourse`. -/
structure InspectedAssignmentFromCourse where
  slug : String
  name : String
  grade : String
  submission : String
deriving DecidableEq

/-- Dataclass `InspectedCourse`. The `instructors` and `assignments`
fields are annotated as sets in the source but are populated with lists by
`inspect_course`, so they are embedded as lists. -/
structure InspectedCourse where
  slug : String
  short_name : String
  long_name : String
  term : String
  instructors : List String
  assignments : List InspectedAssignmentFromCourse
deriving DecidableEq

/-- Dataclass `SubmissionFile`. -/
structure SubmissionFile where
  url : String
  ext : String
deriving DecidableEq

/-- Dataclass `InspectedSubmission`. -/
structure InspectedSubmission where
  slug : String
  files : List SubmissionFile
deriving DecidableEq

/-- Dataclass `DownloadedFile`; the `index` field is annotated `str` in
the source but always holds the integer `index + 1`. -/
structure DownloadedFile where
  index : Nat
  path : String
  ext : String
deriving DecidableEq

/-! ### sort_courses -/

/-- One step of the dict-building loop of `sort_courses`:
`by_term[course.term] = by_term.get(course.term, []) + [course]`, with
Python-dict insertion order (a fresh key goes to the end). -/
def addToGroups (gs : List (String × List InspectedCourse)) (c : InspectedCourse) :
    List (String × List InspectedCourse) :=
  match gs with
  | [] => [(c.term, [c])]
  | (t, cs) :: rest =>
    if t = c.term then (t, cs ++ [c]) :: rest
    else (t, cs) :: addToGroups rest c

/-- The `by_term` dict of `sort_courses`, as an association list in
insertion order. -/
def groupByTerm (courses : List InspectedCourse) : List (String × List InspectedCourse) :=
  courses.foldl addToGroups []

/-- The comparison used by `sorted(by_term.items(), key=...)`: Python
tuple order on the chronological index of the term, as a (total) `≤`. -/
def termKeyLe (a b : String × List InspectedCourse) : Prop :=
  (term_chrono_index a.1).1 < (term_chrono_index b.1).1 ∨
    ((term_chrono_index a.1).1 = (term_chrono_index b.1).1 ∧
      (term_chrono_index a.1).2 ≤ (term_chrono_index b.1).2)

instance : DecidableRel termKeyLe := fun a b => by
  unfold termKeyLe; infer_instance

instance : IsTotal (String × List InspectedCourse) termKeyLe where
  total a b := by unfold termKeyLe; omega

instance : IsTrans (String × List InspectedCourse) termKeyLe where
  trans a b c hab hbc := by
    unfold termKeyLe at hab hbc ⊢; omega

/-- `sort_courses`: group by raw term string, then sort the groups by the
chronological index of the term. Python `sorted` is a stable sort by a
total preorder, extensionally equal to `List.insertionSort` with the
corresponding `≤`. -/
def sort_courses (courses : List InspectedCourse) : List (String × List InspectedCourse) :=
  List.insertionSort termKeyLe (groupByTerm courses)

/-! ### Substring search: Python `str.find` / `in` / `split(sep)` -/

/-- Index of the first occurrence of `pat` in `s` (Python `s.find(pat)`
with `none` for absence). -/
def findSub (pat : List Char) : List Char → Option Nat
  | [] => if pat.isPrefixOf ([] : List Char) then some 0 else none
  | c :: t => if pat.isPrefixOf (c :: t) then some 0 else (findSub pat t).map (· + 1)

/-- Python `pat in s` on character lists. -/
def containsSub (pat s : List Char) : Bool :=
  (findSub pat s).isSome

/-- Python `pat in s` on strings. -/
def strContains (pat s : String) : Bool :=
  containsSub pat.data s.data

theorem findSub_some_le {pat s : List Char} {i : Nat}
    (h : findSub pat s = some i) : i + pat.length ≤ s.length := by
  induction s generalizing i with
  | nil =>
    unfold findSub at h
    split at h
    · rename_i hp
      cases pat with
      | nil => simp_all
      | cons a l => simp [List.isPrefixOf] at hp
    · exact absurd h (by simp)
  | cons c t ih =>
    unfold findSub at h
    split at h
    · rename_i hp
      obtain rfl : i = 0 := by simpa using h.symm
      have := List.IsPrefix.length_le (List.isPrefixOf_iff_prefix.mp hp)
      simpa using this
    · rcases Option.map_eq_some'.mp h with ⟨j, hj, rfl⟩
      have := ih hj
      simp only [List.length_cons]
      omega

theorem findSub_some_drop {pat s : List Char} {i : Nat}
    (h : findSub pat s = some i) : s.drop i = pat ++ s.drop (i + pat.length) := by
  induction s generalizing i with
  | nil =>
    unfold findSub at h
    split at h
    · rename_i hp
      cases pat with
      | nil => simp_all
      | cons a l => simp [List.isPrefixOf] at hp
    · exact absurd h (by simp)
  | cons c t ih =>
    unfold findSub at h
    split at h
    · rename_i hp
      obtain rfl : i = 0 := by simpa using h.symm
      rcases List.isPrefixOf_iff_prefix.mp hp with ⟨u, hu⟩
      simp only [List.drop_zero, Nat.zero_add]
      rw [← hu, List.drop_left']
      rfl
    · rcases Option.map_eq_some'.mp h with ⟨j, hj, rfl⟩
      simp only [show j + 1 + pat.length = (j + pat.length) + 1 from by omega,
        List.drop_succ_cons]
      exact ih hj

/-- Fuel-driven worker for Python `s.split(sep)` with a non-empty
separator `p :: ps`: cut at each leftmost occurrence, the separator
removed. Each step removes at least one character from `s`, so any fuel
above `s.length` computes the full split (see `splitOnFuel_adequate`). -/
def splitOnFuel (p : Char) (ps : List Char) : Nat → List Char → List (List Char)
  | 0, s => [s]
  | fuel + 1, s =>
    match findSub (p :: ps) s with
    | none => [s]
    | some i => s.take i :: splitOnFuel p ps fuel (s.drop (i + (p :: ps).length))

/-- Python `s.split(sep)` for a non-empty separator `p :: ps`. -/
def splitOnCons (p : Char) (ps : List Char) (s : List Char) : List (List Char) :=
  splitOnFuel p ps (s.length + 1) s

/-- The fuel of `splitOnCons` is irrelevant once it exceeds the length of
the string being split, so the fuelled definition computes Python's
`split`. -/
theorem splitOnFuel_adequate {p : Char} {ps : List Char} :
    ∀ {fuel1 fuel2 : Nat} {s : List Char}, s.length < fuel1 → s.length < fuel2 →
      splitOnFuel p ps fuel1 s = splitOnFuel p ps fuel2 s := by
  intro fuel1
  induction fuel1 with
  | zero =>
    intro fuel2 s h1 _
    omega
  | succ f1 ih =>
    intro fuel2 s h1 h2
    cases fuel2 with
    | zero => omega
    | succ f2 =>
      cases hfs : findSub (p :: ps) s with
      | none =>
        have e1 : splitOnFuel p ps (f1 + 1) s = [s] := by
          conv_lhs => rw [splitOnFuel]
          rw [hfs]
        have e2 : splitOnFuel p ps (f2 + 1) s = [s] := by
          conv_lhs => rw [splitOnFuel]
          rw [hfs]
        rw [e1, e2]
      | some i =>
        have hle := findSub_some_le hfs
        have hlen1 : (s.drop (i + (p :: ps).length)).length < f1 := by
          simp only [List.length_drop, List.length_cons] at *
          omega
        have hlen2 : (s.drop (i + (p :: ps).length)).length < f2 := by
          simp only [List.length_drop, List.length_cons] at *
          omega
        have e1 : splitOnFuel p ps (f1 + 1) s =
            s.take i :: splitOnFuel p ps f1 (s.drop (i + (p :: ps).length)) := by
          conv_lhs => rw [splitOnFuel]
          rw [hfs]
        have e2 : splitOnFuel p ps (f2 + 1) s =
            s.take i :: splitOnFuel p ps f2 (s.drop (i + (p :: ps).length)) := by
          conv_lhs => rw [splitOnFuel]
          rw [hfs]
        rw [e1, e2, ih hlen1 hlen2]

/-- Python `s.split(sep)`; the empty-separator case never occurs in gsout
(Python would raise `ValueError` there). -/
def splitOnSub : List Char → List Char → List (List Char)
  | [], s => [s]
  | p :: ps, s => splitOnCons p ps s

/-- First element of a Python `split` result (`split(...)[0]`); a split
list is never empty, `s` is an unreachable fallback. -/
def headSplit (pat s : List Char) : List Char :=
  (splitOnSub pat s).headD s

/-! ### Submission locator (`list_submissions`) -/

/-- `BASE_URL` constant. -/
def BASE_URL : String := "https://www.gradescope.com"

/-- The upload-host marker used by the fallback substring search. -/
def uploadsMarker : String := "https://production-gradescope-uploads"

/-- The HTML-entity-encoded quote terminator of the fallback search. -/
def quotMarker : String := "&quot"

/-- The fallback of `list_submissions` (source line 148):
`('https://production-gradescope-uploads' + ''.join(text.split(marker)[1:])).split("&quot")[0]`. -/
def fallbackLink (text : String) : String :=
  let parts := splitOnSub uploadsMarker.data text.data
  let joined := (parts.drop 1).flatten
  String.mk (headSplit quotMarker.data (uploadsMarker.data ++ joined))

/-- Result of one `session.get`: either a raised exception or a response
with a status code and a body text. -/
inductive HttpResult where
  | raise : HttpResult
  | response (status : Nat) (body : String) : HttpResult
deriving DecidableEq

/-- The effectful environment: the HTTP session (keyed by URL) and the
external JSON route `json.loads(text)["pdf_attachment"]["url"]`, whose
`none` models any exception inside the inner `try`. -/
structure HttpEnv where
  http : String → HttpResult
  jsonPdfUrl : String → Option String

/-- URL of the submission page (also the stem of the two direct guesses). -/
def submissionPageUrl (course : InspectedCourse)
    (assignment : InspectedAssignmentFromCourse) : String :=
  BASE_URL ++ "/courses/" ++ course.slug ++ "/assignments/" ++ assignment.slug
    ++ "/submissions/" ++ assignment.submission

/-- The two direct naming-convention guesses (`for ext in ["pdf", "zip"]`). -/
def guessFiles (course : InspectedCourse)
    (assignment : InspectedAssignmentFromCourse) : List SubmissionFile :=
  [⟨submissionPageUrl course assignment ++ ".pdf", "pdf"⟩,
   ⟨submissionPageUrl course assignment ++ ".zip", "zip"⟩]

/-- The extra link computed from the submission-page body: the JSON route
if it succeeds, otherwise the fallback substring search. -/
def extraLink (env : HttpEnv) (body : String) : String :=
  match env.jsonPdfUrl body with
  | some link => link
  | none => fallbackLink body

/-- The `files` list assembled by `list_submissions`: the two guesses,
plus the extra link when the page GET does not raise and the link
contains `"pdf"`. A raised GET is caught by the outer `except` (printed)
and leaves only the guesses. -/
def submissionFiles (env : HttpEnv) (course : InspectedCourse)
    (assignment : InspectedAssignmentFromCourse) : List SubmissionFile :=
  match env.http (submissionPageUrl course assignment) with
  | .raise => guessFiles course assignment
  | .response _ body =>
    if strContains "pdf" (extraLink env body) then
      guessFiles course assignment ++ [⟨extraLink env body, "pdf"⟩]
    else guessFiles course assignment

/-- `list_submissions`: always a single `InspectedSubmission` wrapping the
assignment's submission slug and the assembled candidates. -/
def list_submissions (env : HttpEnv) (course : InspectedCourse)
    (assignment : InspectedAssignmentFromCourse) : List InspectedSubmission :=
  [⟨assignment.submission, submissionFiles env course assignment⟩]

/-! ### Downloader (`download`) -/

/-- Destination filename `f"{course}-{assignment}-{submission.slug}-{index + 1}.{ext}"`
(`idx` is already the 1-based value). -/
def mkFilename (course assignment sub : String) (idx : Nat) (ext : String) : String :=
  course ++ "-" ++ assignment ++ "-" ++ sub ++ "-" ++ toString idx ++ "." ++ ext

/-- Whether the per-candidate body of the download loop keeps a candidate:
the GET must not raise and must return status 200. -/
def keeps (env : HttpEnv) (f : SubmissionFile) : Bool :=
  match env.http f.url with
  | .raise => false
  | .response st _ => st == 200

/-- The per-candidate record appended on success (position `i` is 0-based). -/
def mkEntry (course assignment sub : String) (i : Nat) (f : SubmissionFile) :
    DownloadedFile :=
  ⟨i + 1, mkFilename course assignment sub (i + 1) f.ext, f.ext⟩

/-- The `for index, link in enumerate(submission.files)` loop of
`download`, carrying the current 0-based index: a raising GET is caught
and skips the candidate, a non-200 status hits `continue`, otherwise the
file is written and recorded. -/
def downloadAux (env : HttpEnv) (course assignment sub : String) :
    Nat → List SubmissionFile → List DownloadedFile
  | _, [] => []
  | i, f :: rest =>
    match env.http f.url with
    | .raise => downloadAux env course assignment sub (i + 1) rest
    | .response st _ =>
      if st = 200 then
        mkEntry course assignment sub i f :: downloadAux env course assignment sub (i + 1) rest
      else downloadAux env course assignment sub (i + 1) rest

/-- `download`: returns the successfully written files in candidate order.
Disk writes are modelled as infallible; exceptions arise from the GET. -/
def download (env : HttpEnv) (course assignment : String)
    (submission : InspectedSubmission) : List DownloadedFile :=
  downloadAux env course assignment submission.slug 0 submission.files

/-- The filenames `download` creates in the staging directory (the disk
effect of the loop; writes are modelled as infallible, so these are
exactly the paths of the returned records). -/
def writtenPaths (env : HttpEnv) (course assignment : String)
    (submission : InspectedSubmission) : List String :=
  (download env course assignment submission).map (fun d => d.path)

/-! ### Orchestrator (`main`) -/

/-- Observable state accumulated by the download phase of `main`:
`count` is the number of processed submissions (`i_assignment - 1`),
`refs` the relative filenames written into README assignment lines
(`readme.write(f"[{file.ext}-{file.index}]({file.path}) ")`), and
`written` the filenames created in the staging directory. -/
structure RunResult where
  count : Nat
  refs : List String
  written : List String
deriving DecidableEq

/-- Body of the per-assignment iteration of `main`: locate submissions,
download each, record README links, bump the counter once per submission. -/
def processAssignment (env : HttpEnv) (course : InspectedCourse)
    (assignment : InspectedAssignmentFromCourse) (acc : RunResult) : RunResult :=
  (list_submissions env course assignment).foldl
    (fun a submission =>
      { count := a.count + 1
        refs := a.refs ++ (download env course.slug assignment.slug submission).map
          (fun d => d.path)
        written := a.written ++ writtenPaths env course.slug assignment.slug submission })
    acc

/-- The `for assignment in course.assignments` loop of `main`. -/
def processCourse (env : HttpEnv) (acc : RunResult) (course : InspectedCourse) :
    RunResult :=
  course.assignments.foldl (fun a asg => processAssignment env course asg a) acc

/-- The `for course in courses_` loop of `main` for one term group. -/
def processGroup (env : HttpEnv) (acc : RunResult) (g : String × List InspectedCourse) :
    RunResult :=
  g.2.foldl (processCourse env) acc

/-- The download phase of `main`: iterate the sorted term groups starting
from `i_assignment = 1` (count `0`). -/
def mainRun (env : HttpEnv) (courses : List InspectedCourse) : RunResult :=
  (sort_courses courses).foldl (processGroup env) ⟨0, [], []⟩

/-- `n_assignments = sum([len(course.assignments) for course in courses])`. -/
def n_assignments (courses : List InspectedCourse) : Nat :=
  (courses.map (fun c => c.assignments.length)).sum

/-- Contents of the archive produced at the end of `main`: the staging
directory in full, i.e. `README.md` plus every file `download` wrote. -/
def archiveEntries (env : HttpEnv) (courses : List InspectedCourse) : List String :=
  "README.md" :: (mainRun env courses).written

/-! ### CLI argument and archiver -/

/-- `zip_file_argument`: accept only paths ending in `.zip`, returning the
path with that suffix removed; otherwise an `ArgumentTypeError`. -/
def zip_file_argument (arg : String) : Except String String :=
  if (".zip".data).isSuffixOf arg.data then
    .ok (String.mk (arg.data.take (arg.data.length - 4)))
  else
    .error "ZIP file path must have the .zip extension"

/-- `shutil.make_archive(args.output, 'zip', tmpdir)` creates the file
`args.output + ".zip"`. -/
def make_archive_path (base : String) : String :=
  base ++ ".zip"

/-! ### Theorems -/

theorem term_chrono_index_of_not_parses {t : String} (h : termParses t = false) :
    term_chrono_index t = (0, 0) := by
  unfold termParses at h
  unfold term_chrono_index
  split
  · rename_i season year heq
    rw [heq] at h
    simp only at h
    rcases hp : parseInt? year with _ | y <;> rcases hs : seasonOrder? season with _ | r <;>
      simp_all
  · rfl

/-- C1: `sort_courses` returns the term groups in nondecreasing order of
the key obtained by parsing the term as `"Season Year"` (year first, then
season rank Spring=0, Summer=1, Fall=2); a term that fails to parse gets
key `(0, 0)`, which is strictly below the key of every parseable term
with a positive year, so such terms sort first. -/
theorem sort_courses_chronological (courses : List InspectedCourse) :
    (sort_courses courses).Pairwise termKeyLe ∧
    (∀ t : String, termParses t = false → term_chrono_index t = (0, 0)) ∧
    (∀ t1 t2 : String, termParses t1 = false → termParses t2 = true →
      0 < (term_chrono_index t2).1 →
      (term_chrono_index t1).1 < (term_chrono_index t2).1) := by
  refine ⟨List.sorted_insertionSort termKeyLe (groupByTerm courses), ?_, ?_⟩
  · exact fun t h => term_chrono_index_of_not_parses h
  · intro t1 t2 h1 _ hy
    rw [term_chrono_index_of_not_parses h1]
    exact hy

/-- C8: the CLI output path is accepted exactly when it ends in `.zip`;
an accepted value is stored with the suffix removed, and the archiver
re-appends `.zip`, so the final archive path is exactly the user-supplied
string; any other path raises an argument-type error. -/
theorem zip_argument_roundtrip (arg : String) :
    ((∃ stored, zip_file_argument arg = .ok stored) ↔ ".zip".data <:+ arg.data) ∧
    (∀ stored, zip_file_argument arg = .ok stored → make_archive_path stored = arg) ∧
    (¬ ".zip".data <:+ arg.data →
      zip_file_argument arg = .error "ZIP file path must have the .zip extension") := by
  refine ⟨⟨?_, ?_⟩, ?_, ?_⟩
  · rintro ⟨stored, hst⟩
    unfold zip_file_argument at hst
    split at hst
    · rename_i h
      exact List.isSuffixOf_iff_suffix.mp h
    · exact absurd hst (by simp)
  · intro h
    refine ⟨String.mk (arg.data.take (arg.data.length - 4)), ?_⟩
    unfold zip_file_argument
    rw [if_pos (List.isSuffixOf_iff_suffix.mpr h)]
  · intro stored hst
    unfold zip_file_argument at hst
    split at hst
    · rename_i h
      obtain rfl : String.mk (arg.data.take (arg.data.length - 4)) = stored := by
        simpa using hst
      rcases List.isSuffixOf_iff_suffix.mp h with ⟨t, ht⟩
      apply String.ext
      rw [make_archive_path, String.data_append, ← ht]
      have hlen : (t ++ ".zip".data).length - 4 = t.length := by
        simp [List.length_append]
      rw [hlen, List.take_left]
    · exact absurd hst (by simp)
  · intro h
    unfold zip_file_argument
    rw [if_neg (fun hb => h (List.isSuffixOf_iff_suffix.mp hb))]

/-- C3: `list_submissions` returns exactly one submission record, whose
slug is the assignment's submission identifier and whose candidate list
has two or three entries: three when the page body is valid JSON whose
`pdf_attachment.url` contains `"pdf"` (the two guesses, then the extracted
link), two when the effective link (JSON route or substring fallback)
does not contain `"pdf"`. -/
theorem list_submissions_candidates (env : HttpEnv) (c : InspectedCourse)
    (a : InspectedAssignmentFromCourse) :
    (list_submissions env c a).length = 1 ∧
    (∀ s ∈ list_submissions env c a, s.slug = a.submission ∧
      (s.files.length = 2 ∨ s.files.length = 3)) ∧
    (∀ st body link, env.http (submissionPageUrl c a) = .response st body →
      env.jsonPdfUrl body = some link → strContains "pdf" link = true →
      ∀ s ∈ list_submissions env c a,
        s.files = guessFiles c a ++ [⟨link, "pdf"⟩] ∧ s.files.length = 3) ∧
    (∀ st body, env.http (submissionPageUrl c a) = .response st body →
      strContains "pdf" (extraLink env body) = false →
      ∀ s ∈ list_submissions env c a, s.files = guessFiles c a ∧ s.files.length = 2) := by
  refine ⟨rfl, ?_, ?_, ?_⟩
  · intro s hs
    simp only [list_submissions, List.mem_singleton] at hs
    subst hs
    refine ⟨rfl, ?_⟩
    simp only [submissionFiles]
    split
    · left; rfl
    · split
      · right; simp [guessFiles]
      · left; rfl
  · intro st body link hhttp hjson hpdf s hs
    simp only [list_submissions, List.mem_singleton] at hs
    subst hs
    simp only [submissionFiles, hhttp]
    have helink : extraLink env body = link := by
      simp [extraLink, hjson]
    rw [helink, if_pos hpdf]
    exact ⟨rfl, by simp [guessFiles]⟩
  · intro st body hhttp hpdf s hs
    simp only [list_submissions, List.mem_singleton] at hs
    subst hs
    simp only [submissionFiles, hhttp]
    rw [if_neg (by simp [hpdf])]
    exact ⟨rfl, rfl⟩

/-- C4: any exception in the extra-link step (modelled by the GET
raising, and by the JSON oracle returning `none`, in which case the pure
fallback runs) is caught: `list_submissions` is total, a raising GET
yields exactly the two direct guesses, and in every case the first two
candidates are the direct `.pdf`/`.zip` guesses. -/
theorem list_submissions_catches (env : HttpEnv) (c : InspectedCourse)
    (a : InspectedAssignmentFromCourse) :
    (env.http (submissionPageUrl c a) = .raise →
      list_submissions env c a = [⟨a.submission, guessFiles c a⟩]) ∧
    (∀ s ∈ list_submissions env c a, s.files.take 2 = guessFiles c a) := by
  constructor
  · intro hraise
    simp [list_submissions, submissionFiles, hraise]
  · intro s hs
    simp only [list_submissions, List.mem_singleton] at hs
    subst hs
    simp only [submissionFiles]
    split
    · rfl
    · split
      · simp [guessFiles]
      · rfl

theorem downloadAux_cons_raise {env : HttpEnv} {c a sub : String}
    {f : SubmissionFile} {rest : List SubmissionFile} {i0 : Nat}
    (hh : env.http f.url = .raise) :
    downloadAux env c a sub i0 (f :: rest) = downloadAux env c a sub (i0 + 1) rest := by
  conv_lhs => rw [downloadAux]
  rw [hh]

theorem downloadAux_cons_response {env : HttpEnv} {c a sub : String}
    {f : SubmissionFile} {rest : List SubmissionFile} {i0 st : Nat} {body : String}
    (hh : env.http f.url = .response st body) :
    downloadAux env c a sub i0 (f :: rest) =
      if st = 200 then
        mkEntry c a sub i0 f :: downloadAux env c a sub (i0 + 1) rest
      else downloadAux env c a sub (i0 + 1) rest := by
  conv_lhs => rw [downloadAux]
  rw [hh]

/-- Membership in the download loop: a record is produced exactly for the
positions whose candidate GET succeeds with status 200, and it is built
from that candidate and its (shifted) 1-based position. -/
theorem mem_downloadAux {env : HttpEnv} {c a sub : String} {fs : List SubmissionFile}
    {i0 : Nat} {d : DownloadedFile} :
    d ∈ downloadAux env c a sub i0 fs ↔
      ∃ j, ∃ hj : j < fs.length, keeps env (fs.get ⟨j, hj⟩) = true ∧
        d = mkEntry c a sub (i0 + j) (fs.get ⟨j, hj⟩) := by
  induction fs generalizing i0 with
  | nil => simp [downloadAux]
  | cons f rest ih =>
    have hsplit : (∃ j, ∃ hj : j < (f :: rest).length,
        keeps env ((f :: rest).get ⟨j, hj⟩) = true ∧
        d = mkEntry c a sub (i0 + j) ((f :: rest).get ⟨j, hj⟩)) ↔
        ((keeps env f = true ∧ d = mkEntry c a sub i0 f) ∨
          (∃ j, ∃ hj : j < rest.length, keeps env (rest.get ⟨j, hj⟩) = true ∧
            d = mkEntry c a sub ((i0 + 1) + j) (rest.get ⟨j, hj⟩))) := by
      constructor
      · rintro ⟨j, hj, hk, rfl⟩
        cases j with
        | zero => exact Or.inl ⟨by simpa using hk, by simp⟩
        | succ j =>
          refine Or.inr ⟨j, by simpa using hj, by simpa using hk, ?_⟩
          have harith : i0 + (j + 1) = (i0 + 1) + j := by omega
          simp [harith]
      · rintro (⟨hk, rfl⟩ | ⟨j, hj, hk, rfl⟩)
        · exact ⟨0, by simp, by simpa using hk, by simp⟩
        · refine ⟨j + 1, by simpa using hj, by simpa using hk, ?_⟩
          have harith : i0 + (j + 1) = (i0 + 1) + j := by omega
          simp [harith]
    rw [hsplit, ← ih]
    rcases hh : env.http f.url with _ | ⟨st, body⟩
    · rw [downloadAux_cons_raise hh]
      have hkf : keeps env f = false := by
        unfold keeps
        rw [hh]
      simp [hkf]
    · rw [downloadAux_cons_response hh]
      by_cases h200 : st = 200
      · rw [if_pos h200]
        have hkf : keeps env f = true := by
          unfold keeps
          rw [hh]
          simp [h200]
        simp [hkf, List.mem_cons, eq_comm]
      · rw [if_neg h200]
        have hkf : keeps env f = false := by
          unfold keeps
          rw [hh]
          simp [h200]
        simp [hkf]

/-- Membership characterization for `download` itself. -/
theorem mem_download {env : HttpEnv} {c a : String} {s : InspectedSubmission}
    {d : DownloadedFile} :
    d ∈ download env c a s ↔
      ∃ j, ∃ hj : j < s.files.length, keeps env (s.files.get ⟨j, hj⟩) = true ∧
        d = mkEntry c a s.slug j (s.files.get ⟨j, hj⟩) := by
  unfold download
  rw [mem_downloadAux]
  simp

/-- C5: a candidate whose GET returns a status other than 200, or whose
GET raises, is excluded from the result of `download` (which is total, so
nothing propagates), and every other candidate's presence in the result
is decided by its own fetch outcome alone. -/
theorem download_skips_failures (env : HttpEnv) (c a : String)
    (s : InspectedSubmission) (i : Nat) (hi : i < s.files.length) :
    (keeps env (s.files.get ⟨i, hi⟩) = false →
      ∀ d ∈ download env c a s, d.index ≠ i + 1) ∧
    (∀ j, ∀ hj : j < s.files.length, j ≠ i →
      ((∃ d ∈ download env c a s, d.index = j + 1) ↔
        keeps env (s.files.get ⟨j, hj⟩) = true)) := by
  constructor
  · intro hfail d hd hidx
    rcases mem_download.mp hd with ⟨j, hj, hk, rfl⟩
    have : j = i := by
      simp only [mkEntry] at hidx
      omega
    subst this
    rw [hfail] at hk
    exact absurd hk (by simp)
  · intro j hj _
    constructor
    · rintro ⟨d, hd, hidx⟩
      rcases mem_download.mp hd with ⟨j2, hj2, hk, rfl⟩
      have : j2 = j := by
        simp only [mkEntry] at hidx
        omega
      subst this
      exact hk
    · intro hk
      exact ⟨mkEntry c a s.slug j (s.files.get ⟨j, hj⟩),
        mem_download.mpr ⟨j, hj, hk, rfl⟩, rfl⟩

/-- Every record produced by the download loop has a 1-based index
strictly above the current loop position. -/
theorem downloadAux_index_lt {env : HttpEnv} {c a sub : String}
    {fs : List SubmissionFile} {i0 : Nat} :
    ∀ d ∈ downloadAux env c a sub i0 fs, i0 + 1 ≤ d.index := by
  intro d hd
  rcases mem_downloadAux.mp hd with ⟨j, hj, hk, rfl⟩
  simp only [mkEntry]
  omega

/-- The indices produced by the download loop are strictly increasing. -/
theorem downloadAux_indices_sorted (env : HttpEnv) (c a sub : String) :
    ∀ i0 fs, ((downloadAux env c a sub i0 fs).map
      (fun d => d.index)).Pairwise (fun m n => m < n) := by
  intro i0 fs
  induction fs generalizing i0 with
  | nil => simp [downloadAux]
  | cons f rest ih =>
    rcases hh : env.http f.url with _ | ⟨st, body⟩
    · rw [downloadAux_cons_raise hh]
      exact ih (i0 + 1)
    · rw [downloadAux_cons_response hh]
      by_cases h200 : st = 200
      · rw [if_pos h200]
        rw [List.map_cons, List.pairwise_cons]
        refine ⟨?_, ih (i0 + 1)⟩
        intro n hn
        rcases List.mem_map.mp hn with ⟨d, hd, rfl⟩
        have := downloadAux_index_lt d hd
        simp only [mkEntry]
        omega
      · rw [if_neg h200]
        exact ih (i0 + 1)

/-- C10: the index on each record `download` returns is the candidate's
1-based position in the submission's files list (not a success counter):
the indices are strictly increasing, each lies between 1 and
`len(submission.files)`, and each record's extension and on-disk filename
are built from the candidate at that position (so a skipped earlier
candidate leaves a gap in the surviving indices). -/
theorem download_index_is_position (env : HttpEnv) (c a : String)
    (s : InspectedSubmission) :
    ((download env c a s).map (fun d => d.index)).Pairwise (fun m n => m < n) ∧
    (∀ d ∈ download env c a s, 1 ≤ d.index ∧ d.index ≤ s.files.length ∧
      ∃ h : d.index - 1 < s.files.length,
        d.ext = (s.files.get ⟨d.index - 1, h⟩).ext ∧
        d.path = mkFilename c a s.slug d.index (s.files.get ⟨d.index - 1, h⟩).ext ∧
        keeps env (s.files.get ⟨d.index - 1, h⟩) = true) := by
  constructor
  · exact downloadAux_indices_sorted env c a s.slug 0 s.files
  · intro d hd
    rcases mem_download.mp hd with ⟨j, hj, hk, rfl⟩
    refine ⟨by simp [mkEntry], by simp only [mkEntry]; omega, ?_⟩
    have hidx : (mkEntry c a s.slug j (s.files.get ⟨j, hj⟩)).index - 1 = j := by
      simp [mkEntry]
    rw [hidx]
    exact ⟨hj, rfl, rfl, hk⟩

/-! ### The fallback substring search against the spec's description (C7) -/

/-- Modelled from the spec words, as a refinement reference for the
fallback: the substring of the raw response text starting at the first
occurrence of the uploads marker and ending just before the next
occurrence of `"&quot"` (to the end of the text if there is none);
`none` when the marker does not occur at all. -/
def specFallbackLink (text : String) : Option (List Char) :=
  match findSub uploadsMarker.data text.data with
  | none => none
  | some i => some (headSplit quotMarker.data (text.data.drop i))

theorem splitOnFuel_unique {p : Char} {ps s : List Char} {i fuel : Nat}
    (h1 : findSub (p :: ps) s = some i)
    (h2 : findSub (p :: ps) (s.drop (i + (p :: ps).length)) = none)
    (hf : 1 ≤ fuel) :
    splitOnFuel p ps fuel s = [s.take i, s.drop (i + (p :: ps).length)] := by
  cases fuel with
  | zero => omega
  | succ f =>
    have hstep : splitOnFuel p ps (f + 1) s =
        s.take i :: splitOnFuel p ps f (s.drop (i + (p :: ps).length)) := by
      conv_lhs => rw [splitOnFuel]
      rw [h1]
    rw [hstep]
    congr 1
    cases f with
    | zero => rfl
    | succ f2 =>
      conv_lhs => rw [splitOnFuel]
      rw [h2]

theorem splitOnCons_unique {p : Char} {ps s : List Char} {i : Nat}
    (h1 : findSub (p :: ps) s = some i)
    (h2 : findSub (p :: ps) (s.drop (i + (p :: ps).length)) = none) :
    splitOnCons p ps s = [s.take i, s.drop (i + (p :: ps).length)] :=
  splitOnFuel_unique h1 h2 (by omega)

theorem splitOnSub_unique {pat s : List Char} {i : Nat} (hp : pat ≠ [])
    (h1 : findSub pat s = some i)
    (h2 : findSub pat (s.drop (i + pat.length)) = none) :
    splitOnSub pat s = [s.take i, s.drop (i + pat.length)] := by
  cases pat with
  | nil => exact absurd rfl hp
  | cons p ps =>
    simp only [splitOnSub]
    exact splitOnCons_unique h1 h2

/-- C7 counterexample: on a response body in which the uploads marker
occurs twice before the terminator, the code's fallback (which deletes the
later marker occurrences via `''.join(text.split(marker)[1:])`) differs
from the substring of the raw response text that the claim describes. -/
theorem fallback_differs_from_raw_substring :
    specFallbackLink
        "A https://production-gradescope-uploadsB https://production-gradescope-uploadsC&quotD" ≠
      some (fallbackLink
        "A https://production-gradescope-uploadsB https://production-gradescope-uploadsC&quotD").data := by
  decide

/-- C7 amended: when the uploads marker occurs exactly once in the
response body, the fallback does compute the substring of the raw text
from that occurrence up to just before the next `"&quot"` (to the end if
none); and whenever the link the fallback produces does not contain
`"pdf"`, no third candidate is appended. -/
theorem fallback_matches_spec_of_unique (text : String) (i : Nat)
    (h1 : findSub uploadsMarker.data text.data = some i)
    (h2 : findSub uploadsMarker.data
      (text.data.drop (i + uploadsMarker.data.length)) = none) :
    specFallbackLink text = some (fallbackLink text).data ∧
    (∀ env : HttpEnv, ∀ c a st body,
      env.http (submissionPageUrl c a) = HttpResult.response st body →
      env.jsonPdfUrl body = none →
      strContains "pdf" (fallbackLink body) = false →
      submissionFiles env c a = guessFiles c a) := by
  constructor
  · have hp : uploadsMarker.data ≠ [] := by decide
    have hsplit := splitOnSub_unique hp h1 h2
    have hdrop := findSub_some_drop h1
    unfold specFallbackLink fallbackLink
    rw [h1, hsplit]
    simp only [List.drop_succ_cons, List.drop_zero, List.flatten_cons,
      List.flatten_nil, List.append_nil]
    rw [hdrop]
  · intro env c a st body hhttp hjson hpdf
    have he : extraLink env body = fallbackLink body := by
      simp [extraLink, hjson]
    simp [submissionFiles, hhttp, he, hpdf]

/-! ### Structure of the term grouping (for C2, C6, C9) -/

theorem addToGroups_keys (gs : List (String × List InspectedCourse)) (c : InspectedCourse) :
    (addToGroups gs c).map Prod.fst =
      if c.term ∈ gs.map Prod.fst then gs.map Prod.fst
      else gs.map Prod.fst ++ [c.term] := by
  induction gs with
  | nil => simp [addToGroups]
  | cons hd tl ih =>
    obtain ⟨t, cs⟩ := hd
    by_cases ht : t = c.term
    · subst ht
      simp [addToGroups]
    · rw [show addToGroups ((t, cs) :: tl) c = (t, cs) :: addToGroups tl c from by
        simp [addToGroups, ht]]
      by_cases hmem : c.term ∈ tl.map Prod.fst
      · simp [ih, hmem, Ne.symm ht]
      · simp [ih, hmem, Ne.symm ht]

/-- Content preservation for one dict-update step: every group of the
updated accumulator holds exactly the matching-term courses of the
extended processed prefix. -/
theorem addToGroups_content (c : InspectedCourse) (processed : List InspectedCourse) :
    ∀ acc : List (String × List InspectedCourse),
      (acc.map Prod.fst).Nodup →
      (∀ g ∈ acc, g.2 = processed.filter (fun x => x.term == g.1)) →
      (c.term ∉ acc.map Prod.fst →
        processed.filter (fun x => x.term == c.term) = []) →
      ∀ g ∈ addToGroups acc c,
        g.2 = (processed ++ [c]).filter (fun x => x.term == g.1) := by
  intro acc
  induction acc with
  | nil =>
    intro _ _ hmiss g hg
    simp only [addToGroups, List.mem_singleton] at hg
    subst hg
    simp [List.filter_append, hmiss (by simp)]
  | cons hd tl ih =>
    intro hnd hcontent hmiss g hg
    obtain ⟨t, cs⟩ := hd
    have hred : addToGroups ((t, cs) :: tl) c =
        if t = c.term then (t, cs ++ [c]) :: tl
        else (t, cs) :: addToGroups tl c := rfl
    have hndtl : (tl.map Prod.fst).Nodup := (List.nodup_cons.mp (by simpa using hnd)).2
    have htnin : t ∉ tl.map Prod.fst := (List.nodup_cons.mp (by simpa using hnd)).1
    by_cases ht : t = c.term
    · rw [hred, if_pos ht] at hg
      rcases List.mem_cons.mp hg with rfl | hg
      · have hcs : cs = processed.filter (fun x => x.term == t) :=
          hcontent (t, cs) (by simp)
        show cs ++ [c] = List.filter (fun x => x.term == t) (processed ++ [c])
        rw [List.filter_append, ← hcs]
        have hc : (c.term == t) = true := by
          simp [ht.symm]
        simp [hc]
      · have hgc := hcontent g (by simp [hg])
        have hgne : g.1 ≠ t := by
          intro hcontra
          exact htnin (hcontra ▸ List.mem_map.mpr ⟨g, hg, rfl⟩)
        rw [List.filter_append, hgc]
        have hc : (c.term == g.1) = false := by
          rw [← ht]
          simp [Ne.symm hgne]
        simp [hc]
    · rw [hred, if_neg ht] at hg
      rcases List.mem_cons.mp hg with rfl | hg
      · have hcs : cs = processed.filter (fun x => x.term == t) :=
          hcontent (t, cs) (by simp)
        show cs = List.filter (fun x => x.term == t) (processed ++ [c])
        rw [List.filter_append, ← hcs]
        have hc : (c.term == t) = false := by
          simp [Ne.symm ht]
        simp [hc]
      · refine ih hndtl (fun g2 hg2 => hcontent g2 (by simp [hg2])) ?_ g hg
        intro hnin
        exact hmiss (by simp [Ne.symm ht, hnin])

/-- The full invariant of the `by_term` dict after the grouping loop:
keys are distinct, each group is the input filtered to its term (so
arrival order is preserved within a group), every input course's term is
a key, and every key is some input course's term. -/
theorem groupByTerm_invariant (courses : List InspectedCourse) :
    ((groupByTerm courses).map Prod.fst).Nodup ∧
    (∀ g ∈ groupByTerm courses, g.2 = courses.filter (fun x => x.term == g.1)) ∧
    (∀ x ∈ courses, x.term ∈ (groupByTerm courses).map Prod.fst) ∧
    (∀ g ∈ groupByTerm courses, g.1 ∈ courses.map (fun x => x.term)) := by
  suffices h : ∀ (rest processed : List InspectedCourse)
      (acc : List (String × List InspectedCourse)),
      (acc.map Prod.fst).Nodup →
      (∀ g ∈ acc, g.2 = processed.filter (fun x => x.term == g.1)) →
      (∀ x ∈ processed, x.term ∈ acc.map Prod.fst) →
      (∀ g ∈ acc, g.1 ∈ processed.map (fun x => x.term)) →
      ((rest.foldl addToGroups acc).map Prod.fst).Nodup ∧
      (∀ g ∈ rest.foldl addToGroups acc,
        g.2 = (processed ++ rest).filter (fun x => x.term == g.1)) ∧
      (∀ x ∈ processed ++ rest, x.term ∈ (rest.foldl addToGroups acc).map Prod.fst) ∧
      (∀ g ∈ rest.foldl addToGroups acc,
        g.1 ∈ (processed ++ rest).map (fun x => x.term)) by
    have := h courses [] [] (by simp) (by simp) (by simp) (by simp)
    simpa [groupByTerm] using this
  intro rest
  induction rest with
  | nil =>
    intro processed acc h1 h2 h3 h4
    simp only [List.foldl_nil, List.append_nil]
    exact ⟨h1, h2, h3, h4⟩
  | cons c rest ih =>
    intro processed acc h1 h2 h3 h4
    have hmiss : c.term ∉ acc.map Prod.fst →
        processed.filter (fun x => x.term == c.term) = [] := by
      intro hnin
      rw [List.filter_eq_nil_iff]
      intro x hx
      simp only [beq_iff_eq]
      intro hcontra
      exact hnin (hcontra ▸ h3 x hx)
    have s1 : ((addToGroups acc c).map Prod.fst).Nodup := by
      rw [addToGroups_keys]
      by_cases hmem : c.term ∈ acc.map Prod.fst
      · simpa [hmem] using h1
      · simp [hmem, List.nodup_append, h1]
    have s2 : ∀ g ∈ addToGroups acc c,
        g.2 = (processed ++ [c]).filter (fun x => x.term == g.1) :=
      addToGroups_content c processed acc h1 h2 hmiss
    have s3 : ∀ x ∈ processed ++ [c], x.term ∈ (addToGroups acc c).map Prod.fst := by
      intro x hx
      rw [addToGroups_keys]
      rcases List.mem_append.mp hx with hx | hx
      · by_cases hmem : c.term ∈ acc.map Prod.fst
        · simpa [hmem] using h3 x hx
        · simp [hmem, h3 x hx]
      · have hxc : x = c := by simpa using hx
        rw [hxc]
        by_cases hmem : c.term ∈ acc.map Prod.fst
        · rw [if_pos hmem]
          exact hmem
        · rw [if_neg hmem]
          simp
    have s4 : ∀ g ∈ addToGroups acc c,
        g.1 ∈ (processed ++ [c]).map (fun x => x.term) := by
      intro g hg
      have hkey : g.1 ∈ (addToGroups acc c).map Prod.fst :=
        List.mem_map.mpr ⟨g, hg, rfl⟩
      rw [addToGroups_keys] at hkey
      by_cases hmem : c.term ∈ acc.map Prod.fst
      · rw [if_pos hmem] at hkey
        rcases List.mem_map.mp hkey with ⟨g2, hg2, he⟩
        rcases List.mem_map.mp (h4 g2 hg2) with ⟨x, hx, hxe⟩
        exact List.mem_map.mpr ⟨x, by simp [hx], by rw [hxe, he]⟩
      · rw [if_neg hmem] at hkey
        rcases List.mem_append.mp hkey with hkey | hkey
        · rcases List.mem_map.mp hkey with ⟨g2, hg2, he⟩
          rcases List.mem_map.mp (h4 g2 hg2) with ⟨x, hx, hxe⟩
          exact List.mem_map.mpr ⟨x, by simp [hx], by rw [hxe, he]⟩
        · have he : g.1 = c.term := by simpa using hkey
          exact List.mem_map.mpr ⟨c, by simp, he.symm⟩
    have := ih (processed ++ [c]) (addToGroups acc c) s1 s2 s3 s4
    simpa using this

/-- A nodup list over two distinct values containing both is one of the
two orderings. -/
theorem two_key_cases {F S : String} (hne : F ≠ S) {K : List String}
    (hnd : K.Nodup) (hFm : F ∈ K) (hSm : S ∈ K)
    (hcov : ∀ k ∈ K, k = F ∨ k = S) : K = [F, S] ∨ K = [S, F] := by
  rcases K with _ | ⟨a, _ | ⟨b, rest⟩⟩
  · simp at hFm
  · rcases hcov a (by simp) with rfl | rfl
    · have : S = a := by simpa using hSm
      exact absurd this.symm hne
    · have : F = a := by simpa using hFm
      exact absurd this hne
  · have hanin : a ∉ b :: rest := (List.nodup_cons.mp hnd).1
    have hbnin : b ∉ rest := (List.nodup_cons.mp (List.nodup_cons.mp hnd).2).1
    have hrest : rest = [] := by
      cases rest with
      | nil => rfl
      | cons r rest2 =>
        exfalso
        rcases hcov a (by simp) with ha | ha <;>
          rcases hcov b (by simp) with hb | hb <;>
            rcases hcov r (by simp) with hr | hr
        all_goals (
          first
          | exact hanin (by rw [ha, ← hb]; simp)
          | exact hanin (by rw [ha, ← hr]; simp)
          | exact hbnin (by rw [hb, ← hr]; simp))
    subst hrest
    rcases hcov a (by simp) with rfl | rfl <;> rcases hcov b (by simp) with hb | hb
    · exact absurd (by rw [hb]; simp : a ∈ [b]) (by simpa using hanin)
    · left
      rw [hb]
    · right
      rw [hb]
    · exact absurd (by rw [hb]; simp : a ∈ [b]) (by simpa using hanin)

theorem key_spring_2022 : term_chrono_index "Spring 2022" = (2022, 0) := by
  decide

theorem key_fall_2023 : term_chrono_index "Fall 2023" = (2023, 2) := by
  decide

theorem insertionSort_pair {a b : String × List InspectedCourse}
    (hab : termKeyLe a b) (hnba : ¬ termKeyLe b a) :
    List.insertionSort termKeyLe [a, b] = [a, b] ∧
    List.insertionSort termKeyLe [b, a] = [a, b] := by
  constructor
  · simp [List.insertionSort, List.orderedInsert, hab]
  · simp [List.insertionSort, List.orderedInsert, hnba]

/-- C2: every group `sort_courses` emits is the input list filtered to
that group's term, so courses inside a group keep their arrival order;
in particular an input consisting of courses c1, c2 with term
"Fall 2023" (in that relative order) and one course c3 with term
"Spring 2022" sorts to exactly
`[("Spring 2022", [c3]), ("Fall 2023", [c1, c2])]`. -/
theorem sort_courses_groups (cs : List InspectedCourse) :
    (∀ t g, (t, g) ∈ sort_courses cs → g = cs.filter (fun x => x.term == t)) ∧
    (∀ c1 c2 c3 : InspectedCourse,
      (∀ x ∈ cs, x.term = "Fall 2023" ∨ x.term = "Spring 2022") →
      cs.filter (fun x => x.term == "Fall 2023") = [c1, c2] →
      cs.filter (fun x => x.term == "Spring 2022") = [c3] →
      sort_courses cs = [("Spring 2022", [c3]), ("Fall 2023", [c1, c2])]) := by
  obtain ⟨hnd, hcontent, hkeys, hsub⟩ := groupByTerm_invariant cs
  have hmemsort : ∀ g, g ∈ sort_courses cs ↔ g ∈ groupByTerm cs := fun g =>
    List.mem_insertionSort termKeyLe
  constructor
  · intro t g hg
    have := hcontent (t, g) ((hmemsort (t, g)).mp hg)
    simpa using this
  · intro c1 c2 c3 hcov hF hS
    have hc1 : c1 ∈ cs ∧ c1.term = "Fall 2023" := by
      have hm : c1 ∈ cs.filter (fun x => x.term == "Fall 2023") := by
        rw [hF]; simp
      rcases List.mem_filter.mp hm with ⟨h, hb⟩
      exact ⟨h, by simpa using hb⟩
    have hc3 : c3 ∈ cs ∧ c3.term = "Spring 2022" := by
      have hm : c3 ∈ cs.filter (fun x => x.term == "Spring 2022") := by
        rw [hS]; simp
      rcases List.mem_filter.mp hm with ⟨h, hb⟩
      exact ⟨h, by simpa using hb⟩
    have hFK : "Fall 2023" ∈ (groupByTerm cs).map Prod.fst :=
      hc1.2 ▸ hkeys c1 hc1.1
    have hSK : "Spring 2022" ∈ (groupByTerm cs).map Prod.fst :=
      hc3.2 ▸ hkeys c3 hc3.1
    have hcovK : ∀ k ∈ (groupByTerm cs).map Prod.fst,
        k = "Fall 2023" ∨ k = "Spring 2022" := by
      intro k hk
      rcases List.mem_map.mp hk with ⟨g, hg, rfl⟩
      rcases List.mem_map.mp (hsub g hg) with ⟨x, hx, hxe⟩
      rcases hcov x hx with h | h
      · left; rw [← hxe, h]
      · right; rw [← hxe, h]
    have hne : ("Fall 2023" : String) ≠ "Spring 2022" := by decide
    have hab : termKeyLe ("Spring 2022", [c3]) ("Fall 2023", [c1, c2]) := by
      unfold termKeyLe
      rw [show (("Spring 2022", [c3]) : String × List InspectedCourse).1 =
        "Spring 2022" from rfl]
      rw [show (("Fall 2023", [c1, c2]) : String × List InspectedCourse).1 =
        "Fall 2023" from rfl]
      rw [key_spring_2022, key_fall_2023]
      norm_num
    have hnba : ¬ termKeyLe ("Fall 2023", [c1, c2]) ("Spring 2022", [c3]) := by
      unfold termKeyLe
      rw [show (("Spring 2022", [c3]) : String × List InspectedCourse).1 =
        "Spring 2022" from rfl]
      rw [show (("Fall 2023", [c1, c2]) : String × List InspectedCourse).1 =
        "Fall 2023" from rfl]
      rw [key_spring_2022, key_fall_2023]
      norm_num
    rcases two_key_cases hne hnd hFK hSK hcovK with hK | hK
    · rcases gbE : groupByTerm cs with _ | ⟨p, _ | ⟨q, _ | ⟨r, rest⟩⟩⟩
      · rw [gbE] at hK
        simp at hK
      · rw [gbE] at hK
        simp at hK
      · rw [gbE] at hK
        simp only [List.map_cons, List.map_nil] at hK
        obtain ⟨hp1, hq1⟩ : p.1 = "Fall 2023" ∧ q.1 = "Spring 2022" := by
          have := List.cons.injEq p.1 [q.1] "Fall 2023" ["Spring 2022"] ▸ hK
          constructor
          · exact (List.cons.inj hK).1
          · simpa using (List.cons.inj hK).2
        have hp2 : p.2 = [c1, c2] := by
          have := hcontent p (by rw [gbE]; simp)
          rw [this, hp1, hF]
        have hq2 : q.2 = [c3] := by
          have := hcontent q (by rw [gbE]; simp)
          rw [this, hq1, hS]
        have hpe : p = ("Fall 2023", [c1, c2]) := by
          rcases p with ⟨pt, pg⟩
          simp only at hp1 hp2
          rw [hp1, hp2]
        have hqe : q = ("Spring 2022", [c3]) := by
          rcases q with ⟨qt, qg⟩
          simp only at hq1 hq2
          rw [hq1, hq2]
        rw [sort_courses, gbE, hpe, hqe]
        exact (insertionSort_pair hab hnba).2
      · rw [gbE] at hK
        have : ([p.1, q.1, r.1] ++ rest.map Prod.fst).length = 2 := by
          rw [show [p.1, q.1, r.1] ++ rest.map Prod.fst =
            ((p :: q :: r :: rest).map Prod.fst) from by simp, hK]
          simp
        simp at this
    · rcases gbE : groupByTerm cs with _ | ⟨p, _ | ⟨q, _ | ⟨r, rest⟩⟩⟩
      · rw [gbE] at hK
        simp at hK
      · rw [gbE] at hK
        simp at hK
      · rw [gbE] at hK
        simp only [List.map_cons, List.map_nil] at hK
        obtain ⟨hp1, hq1⟩ : p.1 = "Spring 2022" ∧ q.1 = "Fall 2023" := by
          constructor
          · exact (List.cons.inj hK).1
          · simpa using (List.cons.inj hK).2
        have hp2 : p.2 = [c3] := by
          have := hcontent p (by rw [gbE]; simp)
          rw [this, hp1, hS]
        have hq2 : q.2 = [c1, c2] := by
          have := hcontent q (by rw [gbE]; simp)
          rw [this, hq1, hF]
        have hpe : p = ("Spring 2022", [c3]) := by
          rcases p with ⟨pt, pg⟩
          simp only at hp1 hp2
          rw [hp1, hp2]
        have hqe : q = ("Fall 2023", [c1, c2]) := by
          rcases q with ⟨qt, qg⟩
          simp only at hq1 hq2
          rw [hq1, hq2]
        rw [sort_courses, gbE, hpe, hqe]
        exact (insertionSort_pair hab hnba).1
      · rw [gbE] at hK
        have : ([p.1, q.1, r.1] ++ rest.map Prod.fst).length = 2 := by
          rw [show [p.1, q.1, r.1] ++ rest.map Prod.fst =
            ((p :: q :: r :: rest).map Prod.fst) from by simp, hK]
          simp
        simp at this

/-! ### Orchestrator bookkeeping (C6, C9) -/

/-- Number of assignments carried by one term group. -/
def groupWeight (g : String × List InspectedCourse) : Nat :=
  (g.2.map (fun c => c.assignments.length)).sum

theorem addToGroups_weight (gs : List (String × List InspectedCourse))
    (c : InspectedCourse) :
    ((addToGroups gs c).map groupWeight).sum =
      (gs.map groupWeight).sum + c.assignments.length := by
  induction gs with
  | nil => simp [addToGroups, groupWeight]
  | cons hd tl ih =>
    obtain ⟨t, cs⟩ := hd
    have hred : addToGroups ((t, cs) :: tl) c =
        if t = c.term then (t, cs ++ [c]) :: tl
        else (t, cs) :: addToGroups tl c := rfl
    by_cases ht : t = c.term
    · rw [hred, if_pos ht]
      simp [groupWeight]
      omega
    · rw [hred, if_neg ht]
      simp only [List.map_cons, List.sum_cons, ih]
      omega

theorem groupByTerm_weight (courses : List InspectedCourse) :
    ((groupByTerm courses).map groupWeight).sum = n_assignments courses := by
  suffices h : ∀ (rest : List InspectedCourse)
      (acc : List (String × List InspectedCourse)),
      ((rest.foldl addToGroups acc).map groupWeight).sum =
        (acc.map groupWeight).sum + n_assignments rest by
    simpa [groupByTerm] using h courses []
  intro rest
  induction rest with
  | nil =>
    intro acc
    simp [n_assignments]
  | cons c rest ih =>
    intro acc
    rw [List.foldl_cons, ih, addToGroups_weight]
    simp [n_assignments]
    omega

theorem sort_courses_weight (courses : List InspectedCourse) :
    ((sort_courses courses).map groupWeight).sum = n_assignments courses := by
  have hperm : List.Perm (sort_courses courses) (groupByTerm courses) :=
    List.perm_insertionSort termKeyLe (groupByTerm courses)
  rw [(hperm.map groupWeight).sum_eq, groupByTerm_weight]

theorem processAssignment_count (env : HttpEnv) (course : InspectedCourse)
    (assignment : InspectedAssignmentFromCourse) (acc : RunResult) :
    (processAssignment env course assignment acc).count = acc.count + 1 := rfl

theorem processCourse_count (env : HttpEnv) (acc : RunResult)
    (course : InspectedCourse) :
    (processCourse env acc course).count = acc.count + course.assignments.length := by
  unfold processCourse
  generalize course.assignments = asgs
  induction asgs generalizing acc with
  | nil => simp
  | cons x xs ih =>
    rw [List.foldl_cons, ih, processAssignment_count]
    simp only [List.length_cons]
    omega

theorem processGroup_count (env : HttpEnv) (acc : RunResult)
    (g : String × List InspectedCourse) :
    (processGroup env acc g).count = acc.count + groupWeight g := by
  unfold processGroup groupWeight
  generalize g.2 = gs
  induction gs generalizing acc with
  | nil => simp
  | cons x xs ih =>
    rw [List.foldl_cons, ih, processCourse_count]
    simp only [List.map_cons, List.sum_cons]
    omega

/-- C6: the per-submission counter of `main` ends exactly at
`n_assignments`, the sum of the assignment counts over all inspected
courses (the locator returning exactly one submission per assignment,
which is also proved here). -/
theorem mainRun_count (env : HttpEnv) (courses : List InspectedCourse) :
    (mainRun env courses).count = n_assignments courses ∧
    (∀ course assignment, (list_submissions env course assignment).length = 1) := by
  constructor
  · have h : ∀ (gs : List (String × List InspectedCourse)) (acc : RunResult),
        (gs.foldl (processGroup env) acc).count =
          acc.count + (gs.map groupWeight).sum := by
      intro gs
      induction gs with
      | nil => intro acc; simp
      | cons g gs ih =>
        intro acc
        rw [List.foldl_cons, ih, processGroup_count]
        simp only [List.map_cons, List.sum_cons]
        omega
    rw [mainRun, h, sort_courses_weight]
    simp
  · intro course assignment
    rfl

theorem processAssignment_refs_written (env : HttpEnv) (course : InspectedCourse)
    (assignment : InspectedAssignmentFromCourse) (acc : RunResult)
    (h : acc.refs = acc.written) :
    (processAssignment env course assignment acc).refs =
      (processAssignment env course assignment acc).written := by
  simp [processAssignment, list_submissions, writtenPaths, h]

theorem processCourse_refs_written (env : HttpEnv) (acc : RunResult)
    (course : InspectedCourse) (h : acc.refs = acc.written) :
    (processCourse env acc course).refs = (processCourse env acc course).written := by
  unfold processCourse
  generalize course.assignments = asgs
  induction asgs generalizing acc with
  | nil => simpa using h
  | cons x xs ih =>
    rw [List.foldl_cons]
    exact ih _ (processAssignment_refs_written env course x acc h)

theorem processGroup_refs_written (env : HttpEnv) (acc : RunResult)
    (g : String × List InspectedCourse) (h : acc.refs = acc.written) :
    (processGroup env acc g).refs = (processGroup env acc g).written := by
  unfold processGroup
  generalize g.2 = gs
  induction gs generalizing acc with
  | nil => simpa using h
  | cons x xs ih =>
    rw [List.foldl_cons]
    exact ih _ (processCourse_refs_written env acc x h)

theorem mainRun_refs_eq_written (env : HttpEnv) (courses : List InspectedCourse) :
    (mainRun env courses).refs = (mainRun env courses).written := by
  unfold mainRun
  have h : ∀ (gs2 : List (String × List InspectedCourse)) (acc : RunResult),
      acc.refs = acc.written →
      (gs2.foldl (processGroup env) acc).refs =
        (gs2.foldl (processGroup env) acc).written := by
    intro gs2
    induction gs2 with
    | nil => intro acc h; simpa using h
    | cons g gs2 ih =>
      intro acc h
      rw [List.foldl_cons]
      exact ih _ (processGroup_refs_written env acc g h)
  exact h (sort_courses courses) ⟨0, [], []⟩ rfl

/-- C9: whenever at least one file download succeeds, every relative
filename written into a README assignment line is the path of a file the
downloader wrote into the staging directory, and the archive packs the
staging directory in full (README plus every written file), so no README
link dangles in the produced archive. -/
theorem readme_refs_in_archive (env : HttpEnv) (courses : List InspectedCourse)
    (hsome : (mainRun env courses).written ≠ []) :
    (∀ p ∈ (mainRun env courses).refs, p ∈ (mainRun env courses).written) ∧
    archiveEntries env courses = "README.md" :: (mainRun env courses).written ∧
    (∀ p ∈ (mainRun env courses).refs, p ∈ archiveEntries env courses) := by
  refine ⟨?_, rfl, ?_⟩
  · intro p hp
    rw [← mainRun_refs_eq_written env courses]
    exact hp
  · intro p hp
    have : p ∈ (mainRun env courses).written := by
      rw [← mainRun_refs_eq_written env courses]
      exact hp
    exact List.mem_cons_of_mem _ this

/-! ### Concrete witnesses -/

/-- Witness for C1: an unparseable term's key sorts strictly below the
key of "Fall 2023". -/
theorem sort_courses_chronological_witness :
    (term_chrono_index "garbage").1 < (term_chrono_index "Fall 2023").1 :=
  (sort_courses_chronological []).2.2 "garbage" "Fall 2023" (by decide) (by decide)
    (by decide)

/-- Witness for C2 on a concrete three-course input. -/
theorem sort_courses_groups_witness :
    sort_courses [⟨"c1", "C1", "", "Fall 2023", [], []⟩,
        ⟨"c3", "C3", "", "Spring 2022", [], []⟩,
        ⟨"c2", "C2", "", "Fall 2023", [], []⟩] =
      [("Spring 2022", [⟨"c3", "C3", "", "Spring 2022", [], []⟩]),
       ("Fall 2023", [⟨"c1", "C1", "", "Fall 2023", [], []⟩,
         ⟨"c2", "C2", "", "Fall 2023", [], []⟩])] :=
  (sort_courses_groups _).2 _ _ _ (by decide) (by decide) (by decide)

/-- Witness for C3: a JSON body with a pdf link yields three candidates. -/
theorem list_submissions_candidates_witness :
    (submissionFiles ⟨fun _ => HttpResult.response 200 "body", fun _ => some "x.pdf"⟩
      ⟨"c", "", "", "", [], []⟩ ⟨"a", "", "", "777"⟩).length = 3 :=
  ((list_submissions_candidates
      ⟨fun _ => HttpResult.response 200 "body", fun _ => some "x.pdf"⟩
      ⟨"c", "", "", "", [], []⟩ ⟨"a", "", "", "777"⟩).2.2.1 200 "body" "x.pdf"
      rfl rfl (by decide) _ (List.mem_singleton.mpr rfl)).2

/-- Witness for C4: a raising GET still yields the two direct guesses. -/
theorem list_submissions_catches_witness :
    list_submissions ⟨fun _ => HttpResult.raise, fun _ => none⟩
        ⟨"c", "", "", "", [], []⟩ ⟨"a", "", "", "777"⟩ =
      [⟨"777", guessFiles ⟨"c", "", "", "", [], []⟩ ⟨"a", "", "", "777"⟩⟩] :=
  (list_submissions_catches ⟨fun _ => HttpResult.raise, fun _ => none⟩
    ⟨"c", "", "", "", [], []⟩ ⟨"a", "", "", "777"⟩).1 rfl

/-- Witness for C5: with the first candidate answering 404 and the second
200, the surviving record does not carry the failed candidate's index. -/
theorem download_skips_failures_witness :
    (⟨2, mkFilename "c" "a" "s" 2 "zip", "zip"⟩ : DownloadedFile).index ≠ 1 :=
  (download_skips_failures
      ⟨fun u => if u = "u1" then HttpResult.response 404 "" else HttpResult.response 200 "",
        fun _ => none⟩
      "c" "a" ⟨"s", [⟨"u1", "pdf"⟩, ⟨"u2", "zip"⟩]⟩ 0 (by decide)).1 (by decide) _
    (by decide)

/-- Witness for the amended C7 on a body with a unique marker occurrence. -/
theorem fallback_matches_spec_of_unique_witness :
    specFallbackLink "x https://production-gradescope-uploads/f.pdf&quot;y" =
      some (fallbackLink "x https://production-gradescope-uploads/f.pdf&quot;y").data :=
  (fallback_matches_spec_of_unique
    "x https://production-gradescope-uploads/f.pdf&quot;y" 2 (by decide) (by decide)).1

/-- Witness for C8: the accepted path "out.zip" round-trips. -/
theorem zip_argument_roundtrip_witness :
    make_archive_path "out" = "out.zip" :=
  (zip_argument_roundtrip "out.zip").2.1 "out" (by rfl)

/-- Witness for C9: a successfully downloaded file referenced by the
README is present in the archive. -/
theorem readme_refs_in_archive_witness :
    "c-a-s-1.pdf" ∈ archiveEntries
      ⟨fun _ => HttpResult.response 200 "", fun _ => none⟩
      [⟨"c", "", "", "Fall 2023", [], [⟨"a", "n", "g", "s"⟩]⟩] :=
  (readme_refs_in_archive
    ⟨fun _ => HttpResult.response 200 "", fun _ => none⟩
    [⟨"c", "", "", "Fall 2023", [], [⟨"a", "n", "g", "s"⟩]⟩] (by decide)).2.2 _
    (by decide)

/-- Witness for C10: the record surviving a skipped first candidate has a
1-based index (its position), at least 1. -/
theorem download_index_is_position_witness :
    1 ≤ (⟨2, mkFilename "c" "a" "s" 2 "zip", "zip"⟩ : DownloadedFile).index :=
  ((download_index_is_position
      ⟨fun u => if u = "u1" then HttpResult.response 404 "" else HttpResult.response 200 "",
        fun _ => none⟩
      "c" "a" ⟨"s", [⟨"u1", "pdf"⟩, ⟨"u2", "zip"⟩]⟩).2 _ (by decide)).1

end Gsout
